import Mathlib

/-!
Verification development for the commit-message generation pipeline of
`commitment-rs`: the response cleaner (`src/agents/mod.rs`), the commit
validator (`src/types.rs`), diff truncation and prompt construction
(`src/prompt.rs`), agent-name parsing (`src/types.rs`), the agent
executor (`src/agents/{claude,codex,gemini}.rs`) and the orchestrator
(`src/lib.rs`).

Strings are modelled as Lean `String` / `List Char`; the Rust `regex`
patterns (all on concrete literals) are implemented as explicit scanning
functions with the crate's leftmost-first, lazy/greedy semantics.
-/

deriving instance DecidableEq for Except

namespace CommitmentRs

/-- Rust `char::is_whitespace` (Unicode `White_Space`), the set used by
`str::trim` and by the regex class `\s`. -/
def wsChars : List Char :=
  [Char.ofNat 0x09, Char.ofNat 0x0A, Char.ofNat 0x0B, Char.ofNat 0x0C,
   Char.ofNat 0x0D, Char.ofNat 0x20, Char.ofNat 0x85, Char.ofNat 0xA0,
   Char.ofNat 0x1680, Char.ofNat 0x2000, Char.ofNat 0x2001, Char.ofNat 0x2002,
   Char.ofNat 0x2003, Char.ofNat 0x2004, Char.ofNat 0x2005, Char.ofNat 0x2006,
   Char.ofNat 0x2007, Char.ofNat 0x2008, Char.ofNat 0x2009, Char.ofNat 0x200A,
   Char.ofNat 0x2028, Char.ofNat 0x2029, Char.ofNat 0x202F, Char.ofNat 0x205F,
   Char.ofNat 0x3000]

def isRustWhitespace (c : Char) : Bool := c ∈ wsChars

/-- ASCII lower-casing of a single character; `str::to_lowercase` acts
like this on every character relevant to the comparisons in this file
(no non-ASCII character Unicode-lowercases into the ASCII strings being
compared against: the candidates map to non-ASCII output or to
multi-character sequences). -/
def asciiLower (c : Char) : Char :=
  if 'A' ≤ c ∧ c ≤ 'Z' then Char.ofNat (c.toNat + 32) else c

/-- Unicode simple case folding as used by the regex crate's `(?i)` flag,
restricted to the code points that fold into ASCII — the complete set per
`CaseFolding.txt` is A–Z, U+017F (LATIN SMALL LETTER LONG S, folding to
`s`) and U+212A (KELVIN SIGN, folding to `k`); every other simple folding
stays outside ASCII and can never equal the ASCII pattern literals
compared against here, so identity is faithful for them. -/
def rustCaseFold (c : Char) : Char :=
  if 'A' ≤ c ∧ c ≤ 'Z' then Char.ofNat (c.toNat + 32)
  else if c = Char.ofNat 0x17F then 's'
  else if c = Char.ofNat 0x212A then 'k'
  else c

/-- Case-insensitive character comparison, as used by the `(?i)` preamble
pattern: equality of simple case foldings. -/
def charEqCI (a b : Char) : Bool := rustCaseFold a = rustCaseFold b

/-- Case-insensitive ("pat is a prefix of l"). -/
def ciStartsWith (pat l : List Char) : Bool :=
  match pat, l with
  | [], _ => true
  | _ :: _, [] => false
  | p :: ps, c :: cs => charEqCI p c && ciStartsWith ps cs

/-- Left trim: `str::trim_start`. -/
def trimLeft (l : List Char) : List Char := l.dropWhile isRustWhitespace

/-- Right trim: `str::trim_end`. -/
def trimRight (l : List Char) : List Char :=
  (l.reverse.dropWhile isRustWhitespace).reverse

/-- `str::trim`. -/
def rustTrim (l : List Char) : List Char := trimRight (trimLeft l)

/-- Split a list at the first (leftmost) occurrence of the literal `pat`:
returns the part strictly before the occurrence and the part strictly
after it.  This is the backbone of the lazy literal-to-literal regex
matches used by the cleaner. -/
def splitFirst (pat : List Char) : List Char → Option (List Char × List Char)
  | [] => if pat.isEmpty then some ([], []) else none
  | c :: rest =>
    if pat.isPrefixOf (c :: rest) then some ([], (c :: rest).drop pat.length)
    else match splitFirst pat rest with
      | some (pre, post) => some (c :: pre, post)
      | none => none

theorem splitFirst_length (pat : List Char) (hpat : pat ≠ []) :
    ∀ l pre post, splitFirst pat l = some (pre, post) →
      post.length + pat.length + pre.length = l.length := by
  intro l
  induction l with
  | nil =>
    intro pre post h
    simp only [splitFirst] at h
    split at h
    · rename_i he
      simp at he
      exact absurd he hpat
    · exact absurd h (by simp)
  | cons c rest ih =>
    intro pre post h
    simp only [splitFirst] at h
    split at h
    · rename_i hpre
      have heq := Option.some.inj h
      have h1 : pre = [] := (Prod.mk.inj heq).1.symm
      have h2 : post = (c :: rest).drop pat.length := (Prod.mk.inj heq).2.symm
      subst h1; subst h2
      have hlen : pat.length ≤ (c :: rest).length :=
        List.IsPrefix.length_le (List.isPrefixOf_iff_prefix.mp hpre)
      simp [List.length_drop, List.length_cons] at hlen ⊢
      omega
    · revert h
      cases hrec : splitFirst pat rest with
      | none => intro h; exact absurd h (by simp)
      | some pr =>
        intro h
        obtain ⟨pre', post'⟩ := pr
        have hr := ih pre' post' hrec
        have heq := Option.some.inj h
        have h1 : pre = c :: pre' := (Prod.mk.inj heq).1.symm
        have h2 : post = post' := (Prod.mk.inj heq).2.symm
        subst h1; subst h2
        simp
        omega

theorem splitFirst_post_lt (pat : List Char) (hpat : pat ≠ [])
    (l pre post : List Char) (h : splitFirst pat l = some (pre, post)) :
    post.length < l.length := by
  have := splitFirst_length pat hpat l pre post h
  have : 1 ≤ pat.length := by
    cases pat with
    | nil => exact absurd rfl hpat
    | cons a b => simp
  omega

/-! ## Response cleaner (`clean_ai_response`, `src/agents/mod.rs`) -/

/-- The literal start marker of the `MARKER_EXTRACT` pattern. -/
def startMarker : List Char := "<<<COMMIT_MESSAGE_START>>>".data

/-- The literal end marker of the `MARKER_EXTRACT` pattern. -/
def endMarker : List Char := "<<<COMMIT_MESSAGE_END>>>".data

/-- Step 1 of the cleaner: the capture group of the leftmost match of
`MARKER_EXTRACT` (start marker, lazy anything, end marker).  Leftmost-first
with a lazy group means: the text after the first start marker, up to the
first end marker that follows it. -/
def extractMarker (l : List Char) : Option (List Char) :=
  match splitFirst startMarker l with
  | none => none
  | some (_, afterStart) =>
    match splitFirst endMarker afterStart with
    | none => none
    | some (inner, _) => some inner

/-- The backtick character. -/
def tickChar : Char := Char.ofNat 96

/-- The three-backtick fence literal of the `CODE_BLOCK` pattern. -/
def ticks : List Char := [tickChar, tickChar, tickChar]

/-- The optional `[a-z]*\n` language tag after an opening fence: consume a
greedy run of lowercase letters followed by a newline, or nothing. -/
def consumeLangTag (l : List Char) : List Char :=
  match l.dropWhile (fun c => 'a' ≤ c && c ≤ 'z') with
  | '\n' :: r => r
  | _ => l

theorem consumeLangTag_length_le (l : List Char) :
    (consumeLangTag l).length ≤ l.length := by
  unfold consumeLangTag
  split
  · rename_i r hr
    have h1 : (l.dropWhile (fun c => 'a' ≤ c && c ≤ 'z')).length ≤ l.length :=
      (List.dropWhile_sublist _).length_le
    rw [hr] at h1
    simp at h1
    omega
  · exact Nat.le_refl _

/-- Fuelled scanner for step 2 of the cleaner (the fuel, at least the
text length, only makes the recursion structural; see `unwrapCode`). -/
def unwrapAux : Nat → List Char → List Char
  | 0, l => l
  | _ + 1, [] => []
  | fuel + 1, c :: rest =>
    if ticks.isPrefixOf (c :: rest) then
      match splitFirst ticks (consumeLangTag ((c :: rest).drop 3)) with
      | some (content, after) => content ++ unwrapAux fuel after
      | none => c :: unwrapAux fuel rest
    else c :: unwrapAux fuel rest

/-- Step 2 of the cleaner: `CODE_BLOCK.replace_all(text, "$1")` — every
fenced block (optional language tag on the opening fence, lazy content) is
replaced by its content; scanning resumes after each match. -/
def unwrapCode (l : List Char) : List Char := unwrapAux l.length l

theorem unwrapAux_congr :
    ∀ fuel fuel' l, l.length ≤ fuel → l.length ≤ fuel' →
      unwrapAux fuel l = unwrapAux fuel' l := by
  intro fuel
  induction fuel with
  | zero =>
    intro fuel' l h _
    have : l = [] := List.length_eq_zero.mp (Nat.le_zero.mp h)
    subst this
    cases fuel' <;> rfl
  | succ fuel ih =>
    intro fuel' l h h'
    cases l with
    | nil => cases fuel' <;> rfl
    | cons c rest =>
      cases fuel' with
      | zero => simp at h'
      | succ fuel' =>
        simp only [unwrapAux]
        split
        · rename_i hpre
          cases hsplit : splitFirst ticks (consumeLangTag ((c :: rest).drop 3)) with
          | none =>
            simp only [List.length_cons] at h h'
            rw [ih fuel' rest (by omega) (by omega)]
          | some pr =>
            obtain ⟨content, after⟩ := pr
            have hlt := splitFirst_post_lt ticks (by simp [ticks]) _ content after hsplit
            have hle := consumeLangTag_length_le ((c :: rest).drop 3)
            simp only [List.length_drop, List.length_cons] at hlt hle h h'
            dsimp only
            rw [ih fuel' after (by omega) (by omega)]
        · simp only [List.length_cons] at h h'
          rw [ih fuel' rest (by omega) (by omega)]

theorem unwrapCode_fence {c : Char} {rest content after : List Char}
    (hpre : ticks.isPrefixOf (c :: rest) = true)
    (hsplit : splitFirst ticks (consumeLangTag ((c :: rest).drop 3)) =
      some (content, after)) :
    unwrapCode (c :: rest) = content ++ unwrapCode after := by
  have hlt := splitFirst_post_lt ticks (by simp [ticks]) _ content after hsplit
  have hle := consumeLangTag_length_le ((c :: rest).drop 3)
  simp only [List.length_drop, List.length_cons] at hlt hle
  unfold unwrapCode
  conv_lhs => simp only [List.length_cons, unwrapAux, hpre, if_pos, hsplit]
  rw [unwrapAux_congr rest.length after.length after (by omega) (by omega)]

theorem unwrapCode_noclose {c : Char} {rest : List Char}
    (hpre : ticks.isPrefixOf (c :: rest) = true)
    (hsplit : splitFirst ticks (consumeLangTag ((c :: rest).drop 3)) = none) :
    unwrapCode (c :: rest) = c :: unwrapCode rest := by
  unfold unwrapCode
  conv_lhs => simp only [List.length_cons, unwrapAux, hpre, if_pos, hsplit]

theorem unwrapCode_nofence {c : Char} {rest : List Char}
    (hpre : ticks.isPrefixOf (c :: rest) = false) :
    unwrapCode (c :: rest) = c :: unwrapCode rest := by
  unfold unwrapCode
  simp only [List.length_cons, unwrapAux, hpre]
  simp

/-- The four alternatives of the `PREAMBLE` pattern, in source order.
`Char.ofNat 39` is the apostrophe of the second alternative. -/
def preambleAlts : List (List Char) :=
  [['h', 'e', 'r', 'e', ' ', 'i', 's'],
   ['h', 'e', 'r', 'e', Char.ofNat 39, 's'],
   ['t', 'h', 'e', ' ', 'c', 'o', 'm', 'm', 'i', 't', ' ',
    'm', 'e', 's', 's', 'a', 'g', 'e'],
   ['c', 'o', 'm', 'm', 'i', 't', ' ', 'm', 'e', 's', 's', 'a', 'g', 'e']]

/-- The `.*?:\s*` tail of the `PREAMBLE` pattern: lazily scan (`.` matches
no newline) to the first colon, then greedily drop whitespace; `none` when
a newline or the end of text is reached first. -/
def scanToColon : List Char → Option (List Char)
  | [] => none
  | c :: r =>
    if c = ':' then some (r.dropWhile isRustWhitespace)
    else if c = '\n' then none
    else scanToColon r

/-- Try the preamble alternatives in order at the start of the text. -/
def tryPreambleAlts : List (List Char) → List Char → Option (List Char)
  | [], _ => none
  | alt :: alts, l =>
    if ciStartsWith alt l then
      match scanToColon (l.drop alt.length) with
      | some r => some r
      | none => tryPreambleAlts alts l
    else tryPreambleAlts alts l

/-- Step 3 of the cleaner: `PREAMBLE.replace_all(text, "")`.  The pattern
is anchored at the very start of the text (`^`, no multiline flag), so it
removes at most one leading preamble. -/
def stripPreamble (l : List Char) : List Char :=
  match tryPreambleAlts preambleAlts l with
  | some rest => rest
  | none => l

/-- The opening tag of the `THINKING_TAGS` pattern. -/
def thinkOpen : List Char := "<thinking>".data

/-- The closing tag of the `THINKING_TAGS` pattern. -/
def thinkClose : List Char := "</thinking>".data

/-- Fuelled scanner for step 4 of the cleaner (see `removeThinking`). -/
def removeThinkingAux : Nat → List Char → List Char
  | 0, l => l
  | _ + 1, [] => []
  | fuel + 1, c :: rest =>
    if thinkOpen.isPrefixOf (c :: rest) then
      match splitFirst thinkClose ((c :: rest).drop thinkOpen.length) with
      | some (_, after) => removeThinkingAux fuel after
      | none => c :: removeThinkingAux fuel rest
    else c :: removeThinkingAux fuel rest

/-- Step 4 of the cleaner: `THINKING_TAGS.replace_all(text, "")` — every
`<thinking>` … `</thinking>` span (lazy, may span lines) is removed. -/
def removeThinking (l : List Char) : List Char := removeThinkingAux l.length l

theorem removeThinkingAux_congr :
    ∀ fuel fuel' l, l.length ≤ fuel → l.length ≤ fuel' →
      removeThinkingAux fuel l = removeThinkingAux fuel' l := by
  intro fuel
  induction fuel with
  | zero =>
    intro fuel' l h _
    have : l = [] := List.length_eq_zero.mp (Nat.le_zero.mp h)
    subst this
    cases fuel' <;> rfl
  | succ fuel ih =>
    intro fuel' l h h'
    cases l with
    | nil => cases fuel' <;> rfl
    | cons c rest =>
      cases fuel' with
      | zero => simp at h'
      | succ fuel' =>
        simp only [removeThinkingAux]
        split
        · rename_i hpre
          cases hsplit : splitFirst thinkClose ((c :: rest).drop thinkOpen.length) with
          | none =>
            simp only [List.length_cons] at h h'
            rw [ih fuel' rest (by omega) (by omega)]
          | some pr =>
            obtain ⟨content, after⟩ := pr
            have hlt := splitFirst_post_lt thinkClose (by simp [thinkClose])
              _ content after hsplit
            simp only [List.length_drop, List.length_cons] at hlt h h'
            dsimp only
            rw [ih fuel' after (by omega) (by omega)]
        · simp only [List.length_cons] at h h'
          rw [ih fuel' rest (by omega) (by omega)]

theorem removeThinking_match {c : Char} {rest content after : List Char}
    (hpre : thinkOpen.isPrefixOf (c :: rest) = true)
    (hsplit : splitFirst thinkClose ((c :: rest).drop thinkOpen.length) =
      some (content, after)) :
    removeThinking (c :: rest) = removeThinking after := by
  have hlt := splitFirst_post_lt thinkClose (by simp [thinkClose]) _ content after hsplit
  simp only [List.length_drop, List.length_cons] at hlt
  unfold removeThinking
  conv_lhs => simp only [List.length_cons, removeThinkingAux, hpre, if_pos, hsplit]
  rw [removeThinkingAux_congr rest.length after.length after (by omega) (by omega)]

theorem removeThinking_noclose {c : Char} {rest : List Char}
    (hpre : thinkOpen.isPrefixOf (c :: rest) = true)
    (hsplit : splitFirst thinkClose ((c :: rest).drop thinkOpen.length) = none) :
    removeThinking (c :: rest) = c :: removeThinking rest := by
  unfold removeThinking
  conv_lhs => simp only [List.length_cons, removeThinkingAux, hpre, if_pos, hsplit]

theorem removeThinking_noopen {c : Char} {rest : List Char}
    (hpre : thinkOpen.isPrefixOf (c :: rest) = false) :
    removeThinking (c :: rest) = c :: removeThinking rest := by
  unfold removeThinking
  simp only [List.length_cons, removeThinkingAux, hpre]
  simp

/-- A pending run of `n` newlines, as emitted by the newline-collapsing
stage: runs of three or more shrink to two. -/
def collapseRun (n : Nat) : List Char := List.replicate (min n 2) '\n'

/-- Structural scanner for step 5 of the cleaner: `pending` counts the
newlines of the run currently being read. -/
def collapseAux : Nat → List Char → List Char
  | pending, [] => collapseRun pending
  | pending, c :: rest =>
    if c = '\n' then collapseAux (pending + 1) rest
    else collapseRun pending ++ c :: collapseAux 0 rest

/-- Step 5 of the cleaner: `MULTIPLE_NEWLINES.replace_all(text, "\n\n")` —
every run of three or more newlines collapses to exactly two. -/
def collapseNewlines (l : List Char) : List Char := collapseAux 0 l

/-- Steps 2–6 of the cleaner, i.e. everything applied to the text after
(possible) marker extraction. -/
def cleanAfterExtract (l : List Char) : List Char :=
  rustTrim (collapseNewlines (removeThinking (stripPreamble (unwrapCode l))))

/-- `clean_ai_response` of `src/agents/mod.rs`: marker extraction, fence
unwrapping, preamble stripping, thinking-tag removal, newline collapsing,
trim — in that order. -/
def clean_ai_response (s : String) : String :=
  match extractMarker s.data with
  | some inner => ⟨cleanAfterExtract inner⟩
  | none => ⟨cleanAfterExtract s.data⟩

example : clean_ai_response
    "Some preamble\n<<<COMMIT_MESSAGE_START>>>feat: add feature<<<COMMIT_MESSAGE_END>>>\nSome postamble"
    = "feat: add feature" := by decide
example : clean_ai_response ("```text\nfeat: add feature\n```") = "feat: add feature" := by decide
example : clean_ai_response ("HERE IS THE COMMIT MESSAGE:\nfeat: add feature") = "feat: add feature" := by decide
example : clean_ai_response ("<thinking>\nLet me analyze...\nOk\n</thinking>\nfeat: add feature") = "feat: add feature" := by decide
example : clean_ai_response ("feat: add feature\n\n\n\n\n\nSome body") = "feat: add feature\n\nSome body" := by decide
example : clean_ai_response ("   \n   \n   ") = "" := by decide
example : clean_ai_response
    ⟨['H', 'e', 'r', 'e', ' ', 'i', Char.ofNat 0x17F, ':', ' ', 'x']⟩ = "x" := by decide

/-! ## Commit validator (`ConventionalCommit::validate`, `src/types.rs`) -/

/-- The eleven commit types of `CONVENTIONAL_COMMIT_PATTERN`, in source
order. -/
def conventionalTypes : List (List Char) :=
  ["feat".data, "fix".data, "docs".data, "style".data, "refactor".data,
   "test".data, "chore".data, "perf".data, "build".data, "ci".data,
   "revert".data]

/-- The scope character class `[a-z0-9\-]` of the pattern. -/
def isScopeChar (c : Char) : Bool :=
  ('a' ≤ c && c ≤ 'z') || ('0' ≤ c && c ≤ '9') || c = '-'

/-- The optional scope group `(\([a-z0-9\-]+\))?`: on `(`, a greedy
non-empty run of scope characters, then `)`. -/
def parseScope : List Char → Option (List Char)
  | [] => none
  | c :: r =>
    if c = '(' then
      match r.dropWhile isScopeChar with
      | [] => none
      | c2 :: r2 =>
        if c2 = ')' then
          if (r.takeWhile isScopeChar).isEmpty then none else some r2
        else none
    else none

/-- The tail `: .+` of the pattern: a literal colon-space, then at least
one character that is not a newline (`.` does not match `\n`; `is_match`
needs no more than one). -/
def colonSpaceDesc : List Char → Bool
  | a :: b :: c :: _ => a = ':' && b = ' ' && c ≠ '\n'
  | _ => false

/-- What follows a matched type: the optional scope (tried first, as the
greedy `?` does), then `: .+`. -/
def afterTypeMatches (r : List Char) : Bool :=
  (match parseScope r with
   | some r2 => colonSpaceDesc r2
   | none => false) || colonSpaceDesc r

/-- `CONVENTIONAL_COMMIT_PATTERN.is_match`: the pattern is anchored at the
start (`^`, no multiline flag), so the whole text matches iff some type
tag is a prefix and the rest of the pattern matches right after it. -/
def matchesConventional (l : List Char) : Bool :=
  conventionalTypes.any fun ty => ty.isPrefixOf l && afterTypeMatches (l.drop ty.length)

/-- A validated conventional commit: the `raw` field is the trimmed input
text (`ConventionalCommit` in `src/types.rs`). -/
structure ConventionalCommit where
  raw : String
  deriving Repr, DecidableEq

/-- `CommitValidationError` of `src/types.rs`. -/
inductive CommitValidationError where
  | empty : CommitValidationError
  | invalidFormat (message : String) : CommitValidationError
  deriving Repr, DecidableEq

/-- `ConventionalCommit::validate`: trim; empty fails with `Empty`;
non-matching fails with `InvalidFormat` carrying the trimmed text;
otherwise the value holds the trimmed text. -/
def ConventionalCommit.validate (msg : String) :
    Except CommitValidationError ConventionalCommit :=
  let t := rustTrim msg.data
  if t.isEmpty then .error .empty
  else if matchesConventional t then .ok ⟨⟨t⟩⟩
  else .error (.invalidFormat ⟨t⟩)

/-- `ConventionalCommit::as_str` (the textual contents of the value). -/
def ConventionalCommit.as_str (c : ConventionalCommit) : String := c.raw

/-- The apostrophe, as a one-character string. -/
def apos : String := ⟨[Char.ofNat 39]⟩

/-- `Display` of `CommitValidationError` (what
`GeneratorError::Validation` carries via `e.to_string()`). -/
def CommitValidationError.toDisplayString : CommitValidationError → String
  | .empty => "commit message is empty"
  | .invalidFormat message =>
      "invalid conventional commit format: " ++ apos ++ message ++ apos ++
        "\nExpected: <type>(<scope>): <description>"

/-- A well-formed scope segment, in the words of the specification:
parenthesized, restricted to lowercase alphanumerics and hyphens. -/
def SpecScope (scope : List Char) : Prop :=
  scope = [] ∨
    ∃ body, body ≠ [] ∧ (∀ c ∈ body, isScopeChar c = true) ∧
      scope = '(' :: body ++ [')']

/-- The grammar of §4.3 as the (amended) claim states it: type tag from
the closed set, optional scope, a literal colon-space, and a description
whose first line is non-empty (at least one non-newline character). -/
def SpecGrammar (t : List Char) : Prop :=
  ∃ ty scope rest, ty ∈ conventionalTypes ∧ SpecScope scope ∧
    rest ≠ [] ∧ rest.head? ≠ some '\n' ∧
    t = ty ++ scope ++ ':' :: ' ' :: rest

/-- The claim's original, unamended reading of the grammar: any non-empty
remainder after the colon-space counts as a description. -/
def ClaimGrammar (t : List Char) : Prop :=
  ∃ ty scope rest, ty ∈ conventionalTypes ∧ SpecScope scope ∧
    rest ≠ [] ∧ t = ty ++ scope ++ ':' :: ' ' :: rest

example : ConventionalCommit.validate ("feat: add new feature") =
    .ok ⟨"feat: add new feature"⟩ := by decide
example : ConventionalCommit.validate ("fix(error-handling): improve validation") =
    .ok ⟨"fix(error-handling): improve validation"⟩ := by decide
example : ConventionalCommit.validate ("   \n  ") = .error .empty := by decide
example : ConventionalCommit.validate ("FEAT: description") =
    .error (.invalidFormat ("FEAT: description")) := by decide
example : ConventionalCommit.validate ("feat(API): description") =
    .error (.invalidFormat ("feat(API): description")) := by decide
example : ConventionalCommit.validate ("feat:") =
    .error (.invalidFormat ("feat:")) := by decide
example : ConventionalCommit.validate ("  feat: test  \n") = .ok ⟨"feat: test"⟩ := by decide

/-! ## Diff truncation (`truncate_diff`, `src/prompt.rs`) -/

/-- `MAX_DIFF_LENGTH` of `src/prompt.rs`.  Rust `str::len` counts UTF-8
bytes, so the budget is a byte budget. -/
def MAX_DIFF_LENGTH : Nat := 8000

/-- UTF-8 byte length of a text, i.e. Rust `str::len`. -/
def utf8Len (l : List Char) : Nat := (l.map Char.utf8Size).sum

/-- The truncation marker appended by `truncate_diff`. -/
def truncMarker : List Char := "\n... (diff truncated)".data

/-- The longest character prefix whose UTF-8 byte length fits the budget:
this is the `is_char_boundary` walk of `truncate_diff`, which lowers the
cut index from the budget to the nearest character boundary. -/
def takeBytes (budget : Nat) : List Char → List Char
  | [] => []
  | c :: rest =>
    if c.utf8Size ≤ budget then c :: takeBytes (budget - c.utf8Size) rest
    else []

/-- `truncate_diff`: text of at most `MAX_DIFF_LENGTH` bytes is returned
unchanged; longer text is cut at the greatest character boundary not past
the budget and the marker is appended. -/
def truncate_diff (l : List Char) : List Char :=
  if utf8Len l ≤ MAX_DIFF_LENGTH then l
  else takeBytes MAX_DIFF_LENGTH l ++ truncMarker

/-! ## Agent names (`AgentName`, `src/types.rs`) -/

/-- `AgentName`: the closed set of supported agents. -/
inductive AgentName where
  | Claude : AgentName
  | Codex : AgentName
  | Gemini : AgentName
  deriving Repr, DecidableEq

/-- `AgentNameParseError` of `src/types.rs`, carrying the invalid input. -/
structure AgentNameParseError where
  invalid : String
  deriving Repr, DecidableEq

/-- `Display for AgentName`: the canonical lowercase name. -/
def AgentName.displayString : AgentName → String
  | .Claude => "claude"
  | .Codex => "codex"
  | .Gemini => "gemini"

/-- `str::to_lowercase`, character-wise.  (Unicode full lowercasing only
differs on non-ASCII input, and no such character lowercases into the
ASCII names compared against here.) -/
def rustToLowercase (s : String) : String := ⟨s.data.map asciiLower⟩

/-- `AgentName::from_str`: lowercase the input, accept exactly the three
names, otherwise fail with the invalid input. -/
def AgentName.from_str (s : String) : Except AgentNameParseError AgentName :=
  if rustToLowercase s = "claude" then .ok .Claude
  else if rustToLowercase s = "codex" then .ok .Codex
  else if rustToLowercase s = "gemini" then .ok .Gemini
  else .error ⟨s⟩

example : AgentName.from_str ("CLAUDE") = .ok .Claude := by decide
example : AgentName.from_str ("Gemini") = .ok .Gemini := by decide
example : AgentName.from_str ("") = .error ⟨""⟩ := by decide
example : AgentName.from_str ("invalid") = .error ⟨"invalid"⟩ := by decide

/-! ## Error taxonomy (`src/error.rs`) -/

/-- `AgentError` of `src/error.rs`. -/
inductive AgentError where
  | notFound (agent : AgentName) : AgentError
  | executionFailed (agent : AgentName) (stderr : String) : AgentError
  | timeout (agent : AgentName) (timeout_secs : Nat) : AgentError
  | invalidResponse (reason : String) : AgentError
  deriving Repr, DecidableEq

/-- `GitError` of `src/error.rs` (the I/O variant's payload modelled as its
message text). -/
inductive GitError where
  | noStagedChanges : GitError
  | commandFailed (command : String) (stderr : String) : GitError
  | worktreeResolution (path : String) : GitError
  | ioError (message : String) : GitError
  deriving Repr, DecidableEq

/-- `GeneratorError` of `src/error.rs`. -/
inductive GeneratorError where
  | agent (e : AgentError) : GeneratorError
  | git (e : GitError) : GeneratorError
  | validation (message : String) : GeneratorError
  deriving Repr, DecidableEq

/-- `StagedDiff` of `src/types.rs`. -/
structure StagedDiff where
  stat : String
  name_status : String
  diff : String
  deriving Repr, DecidableEq

/-! ## Prompt construction (`src/prompt.rs`) -/

/-- Rust `str::lines`: pieces terminated by `\n` or `\r\n` (terminator
stripped; the final terminator is optional). -/
def rustLines : List Char → List (List Char)
  | [] => []
  | Char.ofNat 13 :: '\n' :: rest => [] :: rustLines rest
  | '\n' :: rest => [] :: rustLines rest
  | c :: rest =>
    match rustLines rest with
    | [] => [[c]]
    | line :: more => (c :: line) :: more

def isDigit (c : Char) : Bool := '0' ≤ c && c ≤ '9'

/-- Rust `str::parse::<usize>().ok()` on a digit run: the decimal value,
or `none` on 64-bit overflow (which `unwrap_or(0)` then maps to 0). -/
def parseUsize (l : List Char) : Option Nat :=
  let v := l.foldl (fun acc c => acc * 10 + (c.toNat - 48)) 0
  if v < 2 ^ 64 then some v else none

/-- Does `r` continue a count pattern: the literal `word`, an optional
`s`, then the parenthesized sign? -/
def countTailMatches (word : List Char) (sym : Char) (r : List Char) : Bool :=
  word.isPrefixOf r &&
    (('s' :: '(' :: sym :: [')']).isPrefixOf (r.drop word.length) ||
     ('(' :: sym :: [')']).isPrefixOf (r.drop word.length))

/-- Leftmost match of `(\d+) <word>[s]?\(<sym>\)` (the `INSERTIONS_RE` /
`DELETIONS_RE` patterns of `parse_change_summary`), returning the captured
count. -/
def countScan (word : List Char) (sym : Char) : List Char → Option Nat
  | [] => none
  | c :: rest =>
    if isDigit c then
      if countTailMatches word sym ((c :: rest).dropWhile isDigit) then
        parseUsize ((c :: rest).takeWhile isDigit)
      else countScan word sym rest
    else countScan word sym rest

/-- `parse_change_summary` of `src/prompt.rs`: file count from the
non-empty lines of the name-status text, added/removed line counts from
the stat text, zero when absent. -/
def parse_change_summary (stat name_status : String) : String :=
  let fileCount := ((rustLines name_status.data).filter (fun line => !line.isEmpty)).length
  let linesAdded := (countScan (" insertion").data '+' stat.data).getD 0
  let linesRemoved := (countScan (" deletion").data '-' stat.data).getD 0
  "Files changed: " ++ Nat.repr fileCount ++
    "\nLines added: " ++ Nat.repr linesAdded ++
    "\nLines removed: " ++ Nat.repr linesRemoved

/-- Modelled from the spec: `CONVENTIONAL_COMMIT_TYPES` is declared in the
part of `src/types.rs` that is not present under `src/`; §4.3 fixes the
closed eleven-member set, in the order the validator pattern lists it. -/
def CONVENTIONAL_COMMIT_TYPES : List String :=
  ["feat", "fix", "docs", "style", "refactor", "test", "chore", "perf",
   "build", "ci", "revert"]

/-- `build_prompt` of `src/prompt.rs`: fixed instructions, the extraction
markers, then the change summary, stat, name-status and (truncated) diff
sections, with a placeholder for empty sections. -/
def build_prompt (diff : StagedDiff) : String :=
  "Generate a professional commit message based on the actual code changes.\n\n" ++
  "Requirements:\n" ++
  "1. ANALYZE THE ACTUAL CODE CHANGES - don" ++ apos ++ "t guess based on file names\n" ++
  "2. Clear, descriptive title (50 chars or less) following conventional commits\n" ++
  "   - Start with type: " ++ String.intercalate (", ") CONVENTIONAL_COMMIT_TYPES ++ "\n" ++
  "   - Optional scope in parentheses: type(scope): description\n" ++
  "3. Be CONCISE - match detail level to scope of changes:\n" ++
  "   - Single file/method: 2-4 bullet points max\n" ++
  "   - Multiple files: 4-6 bullet points max\n" ++
  "   - Major refactor: 6+ bullet points as needed\n" ++
  "4. Use imperative mood (\"Add feature\" not \"Added feature\")\n" ++
  "5. Format: Title + blank line + bullet point details (use - prefix)\n" ++
  "6. Focus on the most important changes from the diff:\n" ++
  "   - Key functionality added/modified/removed\n" ++
  "   - Significant logic or behavior changes\n" ++
  "   - Important architectural changes\n" ++
  "7. Avoid over-describing implementation details for small changes\n" ++
  "8. DO NOT include preamble like \"Looking at the changes\"\n" ++
  "9. Start directly with the action (\"Add\", \"Fix\", \"Update\", etc.)\n" ++
  "10. Quality over quantity - fewer, more meaningful bullet points\n\n" ++
  "Example format:\n" ++
  "feat: add user authentication system\n\n" ++
  "- Implement JWT-based authentication flow\n" ++
  "- Add login/logout endpoints in auth routes\n" ++
  "- Create user session management middleware\n\n" ++
  "Return ONLY the commit message content between these markers:\n" ++
  "<<<COMMIT_MESSAGE_START>>>\n" ++
  "(commit message goes here)\n" ++
  "<<<COMMIT_MESSAGE_END>>>\n\n" ++
  "=== CHANGE SUMMARY ===\n" ++
  parse_change_summary diff.stat diff.name_status ++ "\n\n" ++
  "=== FILE STATISTICS ===\n" ++
  (if diff.stat.isEmpty then ("(no changes)\n") else diff.stat ++ "\n") ++ "\n" ++
  "=== FILE STATUS ===\n" ++
  (if diff.name_status.isEmpty then ("(no changes)\n") else diff.name_status ++ "\n") ++ "\n" ++
  "=== FULL DIFF ===\n" ++
  (if diff.diff.isEmpty then ("(no changes)\n") else ⟨truncate_diff diff.diff.data⟩ ++ "\n")

/-! ## Agent executor (`src/agents/{mod,claude,codex,gemini}.rs`)

The executor talks to the operating system (`which` lookups, process
spawning, wall-clock timeout).  That boundary is embedded as an explicit
environment record: which executables resolve, how each phase of the
child-process interaction would behave, and how many wall-clock seconds
each phase takes.  The per-agent `execute` functions below mirror the
source control flow over this environment; each returns its result
together with the number of child processes it attempted to spawn. -/

/-- `AGENT_TIMEOUT` (shared 120-second bound). -/
def AGENT_TIMEOUT_SECS : Nat := 120

/-- Modelled from the spec: `AgentName::command_name` is declared in the
part of `src/types.rs` that is not present under `src/`; §3 gives each
agent ("the literal executable name to invoke"), equal to its canonical
lowercase name (`codex.rs` and `gemini.rs` hard-code theirs). -/
def AgentName.command_name : AgentName → String
  | .Claude => "claude"
  | .Codex => "codex"
  | .Gemini => "gemini"

/-- The observable behaviour of the operating-system boundary for one
agent invocation. -/
structure ProcEnv where
  /-- Does `which <cmd>` exit successfully? -/
  whichFinds : String → Bool
  /-- Outcome of `Command::spawn` (error message on failure). -/
  spawnResult : Except String Unit
  /-- Outcome of writing the prompt to the child's standard input. -/
  stdinWriteResult : Except String Unit
  /-- Outcome of flushing the child's standard input. -/
  stdinFlushResult : Except String Unit
  /-- Does the child exit with a success status? -/
  exitSuccess : Bool
  /-- Captured standard output (lossily decoded). -/
  stdoutText : String
  /-- Captured standard error (lossily decoded). -/
  stderrText : String
  /-- Wall-clock seconds spent spawning the child. -/
  spawnSecs : Nat
  /-- Wall-clock seconds spent delivering the prompt (standard input). -/
  stdinSecs : Nat
  /-- Wall-clock seconds spent awaiting exit and collecting output. -/
  collectSecs : Nat

/-- `check_command_exists`: `which <command>`; failure is `NotFound`
tagged with the given agent. -/
def check_command_exists (env : ProcEnv) (command : String) (agent : AgentName) :
    Except AgentError Unit :=
  if env.whichFinds command then .ok () else .error (.notFound agent)

/-- `run_command_with_stdin` (`src/agents/mod.rs`, also the body of
`run_codex_command`): spawn, write the prompt to standard input, flush,
await output; non-zero exit is `ExecutionFailed` with the captured
standard error. -/
def run_command_with_stdin (env : ProcEnv) (agent : AgentName) :
    Except AgentError String :=
  match env.spawnResult with
  | .error e => .error (.executionFailed agent e)
  | .ok _ =>
    match env.stdinWriteResult with
    | .error e => .error (.executionFailed agent ("failed to write to stdin: " ++ e))
    | .ok _ =>
      match env.stdinFlushResult with
      | .error e => .error (.executionFailed agent ("failed to flush stdin: " ++ e))
      | .ok _ =>
        if env.exitSuccess then .ok env.stdoutText
        else .error (.executionFailed agent env.stderrText)

/-- Total wall-clock seconds of the stdin-protocol child interaction
(everything `tokio::time::timeout` wraps in `claude.rs` / `codex.rs`):
spawning, standard-input delivery, and output collection. -/
def ProcEnv.stdinProtocolSecs (env : ProcEnv) : Nat :=
  env.spawnSecs + env.stdinSecs + env.collectSecs

/-- `ClaudeAgent::execute`: availability check first (before any spawn),
then the whole `run_command_with_stdin` call under the 120-second
timeout.  Returns the result and the number of spawn attempts. -/
def ClaudeAgent.execute (env : ProcEnv) : Except AgentError String × Nat :=
  match check_command_exists env AgentName.Claude.command_name .Claude with
  | .error e => (.error e, 0)
  | .ok _ =>
    if AGENT_TIMEOUT_SECS < env.stdinProtocolSecs then
      (.error (.timeout .Claude AGENT_TIMEOUT_SECS), 1)
    else (run_command_with_stdin env .Claude, 1)

/-- `CodexAgent::execute` (`codex.rs`): same shape as Claude, with its own
availability check and `NotFound` tag. -/
def CodexAgent.execute (env : ProcEnv) : Except AgentError String × Nat :=
  match check_command_exists env AgentName.Codex.command_name .Codex with
  | .error e => (.error e, 0)
  | .ok _ =>
    if AGENT_TIMEOUT_SECS < env.stdinProtocolSecs then
      (.error (.timeout .Codex AGENT_TIMEOUT_SECS), 1)
    else (run_command_with_stdin env .Codex, 1)

/-- `run_gemini_command`: the prompt travels as an argument, so there is
no standard-input phase. -/
def run_gemini_command (env : ProcEnv) : Except AgentError String :=
  match env.spawnResult with
  | .error e => .error (.executionFailed .Gemini e)
  | .ok _ =>
    if env.exitSuccess then .ok env.stdoutText
    else .error (.executionFailed .Gemini env.stderrText)

/-- `GeminiAgent::execute` (`gemini.rs`): availability check, then the
whole `run_gemini_command` call under the 120-second timeout. -/
def GeminiAgent.execute (env : ProcEnv) : Except AgentError String × Nat :=
  match check_command_exists env AgentName.Gemini.command_name .Gemini with
  | .error e => (.error e, 0)
  | .ok _ =>
    if AGENT_TIMEOUT_SECS < env.spawnSecs + env.collectSecs then
      (.error (.timeout .Gemini AGENT_TIMEOUT_SECS), 1)
    else (run_gemini_command env, 1)

/-- `Agent::execute`: exhaustive dispatch over the closed agent set. -/
def Agent.execute (a : AgentName) (env : ProcEnv) : Except AgentError String × Nat :=
  match a with
  | .Claude => ClaudeAgent.execute env
  | .Codex => CodexAgent.execute env
  | .Gemini => GeminiAgent.execute env

/-! ## Orchestrator (`generate_commit_message`, `src/lib.rs`) -/

/-- The `GitProvider` collaborator, embedded as its observable answers. -/
structure GitProviderM where
  hasStagedChanges : Except GitError Bool
  getStagedDiff : Except GitError StagedDiff

/-- How often each pipeline step ran during one `generate_commit_message`
call. -/
structure GenTrace where
  gitChecks : Nat
  diffGets : Nat
  promptsBuilt : Nat
  agentCalls : Nat
  validations : Nat
  deriving Repr, DecidableEq

/-- `generate_commit_message` of `src/lib.rs`: staged-changes check, diff
retrieval, prompt construction, agent execution, cleaning, optional
signature after two newlines, validation — each step at most once, each
failure short-circuiting the rest. -/
def generate_commit_message (git : GitProviderM)
    (agentExec : String → Except AgentError String) (signature : Option String) :
    Except GeneratorError ConventionalCommit × GenTrace :=
  match git.hasStagedChanges with
  | .error e => (.error (.git e), ⟨1, 0, 0, 0, 0⟩)
  | .ok false => (.error (.git .noStagedChanges), ⟨1, 0, 0, 0, 0⟩)
  | .ok true =>
    match git.getStagedDiff with
    | .error e => (.error (.git e), ⟨1, 1, 0, 0, 0⟩)
    | .ok diff =>
      let prompt := build_prompt diff
      match agentExec prompt with
      | .error e => (.error (.agent e), ⟨1, 1, 1, 1, 0⟩)
      | .ok raw =>
        let cleaned := clean_ai_response raw
        let finalMessage :=
          match signature with
          | some sig => cleaned ++ "\n\n" ++ sig
          | none => cleaned
        match ConventionalCommit.validate finalMessage with
        | .error e => (.error (.validation e.toDisplayString), ⟨1, 1, 1, 1, 1⟩)
        | .ok c => (.ok c, ⟨1, 1, 1, 1, 1⟩)

/-! ## Helper lemmas about the cleaner stages -/

theorem ws_char_props (c : Char) (h : isRustWhitespace c = true) :
    rustCaseFold c = c ∧ c ≠ 'h' ∧ c ≠ 't' ∧ c ≠ 'c' ∧ c ≠ '<' ∧ c ≠ tickChar := by
  have hmem : c ∈ wsChars := by
    unfold isRustWhitespace at h
    exact of_decide_eq_true h
  fin_cases hmem <;> exact ⟨by decide, by decide, by decide, by decide, by decide, by decide⟩

theorem splitFirst_eq_none_of_head_notMem {a : Char} {pat l : List Char}
    (h : a ∉ l) : splitFirst (a :: pat) l = none := by
  induction l with
  | nil => simp [splitFirst]
  | cons c rest ih =>
    simp only [List.mem_cons, not_or] at h
    obtain ⟨hne, hnm⟩ := h
    have hpre : (a :: pat).isPrefixOf (c :: rest) = false := by
      show ((a == c) && pat.isPrefixOf rest) = false
      simp [hne]
    simp only [splitFirst, hpre]
    simp [ih hnm]

theorem unwrapCode_id_of_no_tick {l : List Char} (h : tickChar ∉ l) :
    unwrapCode l = l := by
  induction l with
  | nil => rfl
  | cons c rest ih =>
    simp only [List.mem_cons, not_or] at h
    obtain ⟨hne, hnm⟩ := h
    have hpre : ticks.isPrefixOf (c :: rest) = false := by
      show ((tickChar == c) && [tickChar, tickChar].isPrefixOf rest) = false
      simp
      intro e
      exact absurd e hne
    rw [unwrapCode_nofence hpre, ih hnm]

theorem removeThinking_id_of_no_lt {l : List Char} (h : '<' ∉ l) :
    removeThinking l = l := by
  induction l with
  | nil => rfl
  | cons c rest ih =>
    simp only [List.mem_cons, not_or] at h
    obtain ⟨hne, hnm⟩ := h
    have hpre : thinkOpen.isPrefixOf (c :: rest) = false := by
      have hshape : thinkOpen = '<' :: thinkOpen.drop 1 := by decide
      rw [hshape]
      show (('<' == c) && (thinkOpen.drop 1).isPrefixOf rest) = false
      simp
      intro e
      exact absurd e hne
    rw [removeThinking_noopen hpre, ih hnm]

theorem tryPreambleAlts_eq_none {alts : List (List Char)} {l : List Char}
    (h : ∀ alt ∈ alts, ciStartsWith alt l = false) :
    tryPreambleAlts alts l = none := by
  induction alts with
  | nil => rfl
  | cons alt alts ih =>
    have h1 : ciStartsWith alt l = false := h alt (List.mem_cons_self _ _)
    simp only [tryPreambleAlts, h1]
    simp [ih (fun a ha => h a (List.mem_cons_of_mem _ ha))]

theorem stripPreamble_id {l : List Char}
    (h : ∀ alt ∈ preambleAlts, ciStartsWith alt l = false) :
    stripPreamble l = l := by
  unfold stripPreamble
  rw [tryPreambleAlts_eq_none h]

theorem stripPreamble_id_of_ws_head {l : List Char}
    (h : ∀ c ∈ l, isRustWhitespace c = true) :
    stripPreamble l = l := by
  cases l with
  | nil => rfl
  | cons c rest =>
    have hc := ws_char_props c (h c (List.mem_cons_self _ _))
    apply stripPreamble_id
    intro alt halt
    have hlow : rustCaseFold c = c := hc.1
    simp only [preambleAlts, List.mem_cons, List.not_mem_nil, or_false] at halt
    rcases halt with rfl | rfl | rfl | rfl
    · show (charEqCI 'h' c && _) = false
      have e1 : rustCaseFold 'h' = 'h' := by decide
      simp only [charEqCI, hlow, e1]
      simp [Ne.symm hc.2.1]
    · show (charEqCI 'h' c && _) = false
      have e1 : rustCaseFold 'h' = 'h' := by decide
      simp only [charEqCI, hlow, e1]
      simp [Ne.symm hc.2.1]
    · show (charEqCI 't' c && _) = false
      have e1 : rustCaseFold 't' = 't' := by decide
      simp only [charEqCI, hlow, e1]
      simp [Ne.symm hc.2.2.1]
    · show (charEqCI 'c' c && _) = false
      have e1 : rustCaseFold 'c' = 'c' := by decide
      simp only [charEqCI, hlow, e1]
      simp [Ne.symm hc.2.2.2.1]

theorem collapseAux_all_ws {l : List Char} (hl : ∀ c ∈ l, isRustWhitespace c = true) :
    ∀ pending c, c ∈ collapseAux pending l → isRustWhitespace c = true := by
  induction l with
  | nil =>
    intro pending c hc
    simp only [collapseAux, collapseRun] at hc
    have := List.eq_of_mem_replicate hc
    subst this
    decide
  | cons a rest ih =>
    intro pending c hc
    have ha := hl a (List.mem_cons_self _ _)
    have hrest : ∀ c ∈ rest, isRustWhitespace c = true :=
      fun c hc => hl c (List.mem_cons_of_mem _ hc)
    simp only [collapseAux] at hc
    by_cases he : a = '\n'
    · rw [if_pos he] at hc
      exact ih hrest _ c hc
    · rw [if_neg he] at hc
      rcases List.mem_append.mp hc with h1 | h2
      · have := List.eq_of_mem_replicate (by simpa [collapseRun] using h1)
        subst this
        decide
      · rcases List.mem_cons.mp h2 with rfl | h3
        · exact ha
        · exact ih hrest _ c h3

theorem rustTrim_eq_nil_of_all_ws {l : List Char}
    (h : ∀ c ∈ l, isRustWhitespace c = true) : rustTrim l = [] := by
  unfold rustTrim trimLeft trimRight
  have h1 : l.dropWhile isRustWhitespace = [] := List.dropWhile_eq_nil_iff.mpr h
  rw [h1]
  rfl

/-! ## Claim C1 -/

/-- C1 (amended): `clean_ai_response` is a total function that returns the
empty string on every empty or whitespace-only input; the idempotence part
of the claim fails on the code (see the counterexample: a second
application can strip a preamble the first application left in place). -/
theorem clean_whitespace_only_eq_empty (s : String)
    (h : ∀ c ∈ s.data, isRustWhitespace c = true) :
    clean_ai_response s = "" := by
  have hlt : '<' ∉ s.data := fun hm => absurd (h _ hm) (by decide)
  have htick : tickChar ∉ s.data := fun hm => absurd (h _ hm) (by decide)
  have hmark : extractMarker s.data = none := by
    unfold extractMarker
    have hS : startMarker = '<' :: startMarker.drop 1 := by decide
    rw [hS, splitFirst_eq_none_of_head_notMem hlt]
  unfold clean_ai_response
  rw [hmark]
  show String.mk (cleanAfterExtract s.data) = ""
  unfold cleanAfterExtract
  rw [unwrapCode_id_of_no_tick htick, stripPreamble_id_of_ws_head h,
    removeThinking_id_of_no_lt hlt]
  have hcoll : ∀ c ∈ collapseNewlines s.data, isRustWhitespace c = true :=
    fun c hc => collapseAux_all_ws h 0 c hc
  rw [show collapseNewlines s.data = collapseAux 0 s.data from rfl] at hcoll ⊢
  rw [rustTrim_eq_nil_of_all_ws hcoll]

/-- C1 counterexample: the cleaner is not idempotent — with leading
whitespace before a preamble, the first pass only trims, and the second
pass then strips the (now leading) preamble. -/
theorem clean_not_idempotent :
    clean_ai_response (clean_ai_response (" here is: a")) ≠
      clean_ai_response (" here is: a") := by decide

/-- C1 witness. -/
theorem clean_whitespace_only_eq_empty_witness :
    clean_ai_response ("  \n ") = "" :=
  clean_whitespace_only_eq_empty ("  \n ") (by decide)

/-! ## Claim C2 -/

/-- The three-newline run that triggers the collapsing stage. -/
def tripleNl : List Char := ['\n', '\n', '\n']

/-- Does the text contain a run of three (or more) newlines? -/
def hasTripleNewline : List Char → Bool
  | [] => false
  | c :: rest => tripleNl.isPrefixOf (c :: rest) || hasTripleNewline rest

theorem hasTripleNewline_mono {c : Char} {rest : List Char}
    (h : hasTripleNewline rest = true) : hasTripleNewline (c :: rest) = true := by
  simp [hasTripleNewline, h]

theorem hasTripleNewline_append {xs rest : List Char}
    (h : hasTripleNewline rest = true) : hasTripleNewline (xs ++ rest) = true := by
  induction xs with
  | nil => exact h
  | cons x xs ih => exact hasTripleNewline_mono ih

theorem collapseAux_id :
    ∀ (l : List Char) (pending : Nat), pending ≤ 2 →
      hasTripleNewline (List.replicate pending '\n' ++ l) = false →
      collapseAux pending l = List.replicate pending '\n' ++ l := by
  intro l
  induction l with
  | nil =>
    intro pending hp _
    simp [collapseAux, collapseRun, Nat.min_eq_left hp]
  | cons c rest ih =>
    intro pending hp htriple
    by_cases he : c = '\n'
    · subst he
      have hp1 : pending ≤ 1 := by
        by_contra hgt
        have hp2 : pending = 2 := by omega
        subst hp2
        have htrue : hasTripleNewline (List.replicate 2 '\n' ++ '\n' :: rest) = true := by
          show hasTripleNewline ('\n' :: '\n' :: '\n' :: rest) = true
          simp [hasTripleNewline, tripleNl, List.isPrefixOf]
        rw [htrue] at htriple
        exact absurd htriple (by simp)
      have heq : List.replicate (pending + 1) '\n' ++ rest =
          List.replicate pending '\n' ++ '\n' :: rest := by
        rw [List.replicate_succ']
        simp
      simp only [collapseAux, if_pos rfl]
      rw [ih (pending + 1) (by omega) (by rw [heq]; exact htriple), heq]
      simp
    · have hrest : hasTripleNewline rest = false := by
        by_contra hr
        have hr2 : hasTripleNewline rest = true := by simpa using hr
        have htrue : hasTripleNewline (List.replicate pending '\n' ++ c :: rest) = true :=
          hasTripleNewline_append (hasTripleNewline_mono hr2)
        rw [htrue] at htriple
        exact absurd htriple (by simp)
      simp only [collapseAux, if_neg he]
      rw [ih 0 (by omega) (by simpa using hrest)]
      simp [collapseRun, Nat.min_eq_left hp]

theorem collapseNewlines_id {l : List Char} (h : hasTripleNewline l = false) :
    collapseNewlines l = l := by
  have hc := collapseAux_id l 0 (by omega) (by simpa using h)
  simpa using hc

/-- C2 (amended): when the text contains the marker pair,
`clean_ai_response` returns the substring between the first start marker
and the first end marker after it — discarding everything before and
after the markers — but with the remaining cleaning stages (fence
unwrapping, preamble stripping, thinking-block removal, newline
collapsing, trim) still applied to it; the result equals the trimmed
inner substring exactly when the inner substring is free of those
artifacts. -/
theorem clean_extracts_between_markers (s : String) (inner : List Char)
    (h : extractMarker s.data = some inner) :
    clean_ai_response s = ⟨cleanAfterExtract inner⟩ ∧
    (tickChar ∉ inner → '<' ∉ inner →
      (∀ alt ∈ preambleAlts, ciStartsWith alt inner = false) →
      hasTripleNewline inner = false →
      clean_ai_response s = ⟨rustTrim inner⟩) := by
  have h1 : clean_ai_response s = ⟨cleanAfterExtract inner⟩ := by
    unfold clean_ai_response
    rw [h]
  refine ⟨h1, fun ht hlt hpre htri => ?_⟩
  rw [h1]
  unfold cleanAfterExtract
  rw [unwrapCode_id_of_no_tick ht, stripPreamble_id hpre,
    removeThinking_id_of_no_lt hlt, collapseNewlines_id htri]

/-- C2 counterexample: for input whose inner marker substring is itself a
fenced block, the cleaner does not return the trimmed inner substring
verbatim — the fence is unwrapped as well. -/
theorem clean_marker_inner_not_verbatim :
    extractMarker (("<<<COMMIT_MESSAGE_START>>>```x```<<<COMMIT_MESSAGE_END>>>").data) =
      some (("```x```").data) ∧
    clean_ai_response ("<<<COMMIT_MESSAGE_START>>>```x```<<<COMMIT_MESSAGE_END>>>") ≠
      ⟨rustTrim (("```x```").data)⟩ := by decide

/-- C2 witness. -/
theorem clean_extracts_between_markers_witness :
    clean_ai_response ("noise<<<COMMIT_MESSAGE_START>>>feat: add x<<<COMMIT_MESSAGE_END>>>more") =
      ⟨rustTrim (("feat: add x").data)⟩ :=
  (clean_extracts_between_markers
    ("noise<<<COMMIT_MESSAGE_START>>>feat: add x<<<COMMIT_MESSAGE_END>>>more")
    (("feat: add x").data) (by decide)).2 (by decide) (by decide) (by decide) (by decide)

/-! ## Claim C3 -/

theorem colonSpaceDesc_iff {r : List Char} :
    colonSpaceDesc r = true ↔ ∃ c rs, r = ':' :: ' ' :: c :: rs ∧ c ≠ '\n' := by
  constructor
  · intro h
    rcases r with _ | ⟨a, _ | ⟨b, _ | ⟨c, rs⟩⟩⟩
    · exact absurd h (by simp [colonSpaceDesc])
    · exact absurd h (by simp [colonSpaceDesc])
    · exact absurd h (by simp [colonSpaceDesc])
    · have h2 : (decide (a = ':') && decide (b = ' ') && decide (¬c = '\n')) = true := h
      simp only [Bool.and_eq_true, decide_eq_true_eq] at h2
      obtain ⟨⟨ha, hb⟩, hc⟩ := h2
      subst ha
      subst hb
      exact ⟨c, rs, rfl, hc⟩
  · rintro ⟨c, rs, rfl, hc⟩
    simp [colonSpaceDesc, hc]

theorem takeWhile_dropWhile_all (p : Char → Bool) (body tail : List Char) (y : Char)
    (hall : ∀ x ∈ body, p x = true) (hy : p y = false) :
    (body ++ y :: tail).takeWhile p = body ∧ (body ++ y :: tail).dropWhile p = y :: tail := by
  induction body with
  | nil => simp [List.takeWhile_cons, List.dropWhile_cons, hy]
  | cons b body ih =>
    have hb : p b = true := hall b (List.mem_cons_self _ _)
    have ihr := ih (fun x hx => hall x (List.mem_cons_of_mem _ hx))
    simp [List.takeWhile_cons, List.dropWhile_cons, hb, ihr.1, ihr.2]

theorem parseScope_iff {r r2 : List Char} :
    parseScope r = some r2 ↔
      ∃ body, body ≠ [] ∧ (∀ x ∈ body, isScopeChar x = true) ∧
        r = '(' :: body ++ ')' :: r2 := by
  constructor
  · intro h
    cases r with
    | nil => simp [parseScope] at h
    | cons c r =>
      simp only [parseScope] at h
      by_cases hc : c = '('
      · rw [if_pos hc] at h
        subst hc
        cases hdrop : r.dropWhile isScopeChar with
        | nil =>
          rw [hdrop] at h
          dsimp only at h
          exact absurd h (by simp)
        | cons c2 r3 =>
          rw [hdrop] at h
          dsimp only at h
          by_cases hc2 : c2 = ')'
          · rw [if_pos hc2] at h
            subst hc2
            by_cases hemp : (r.takeWhile isScopeChar).isEmpty
            · rw [if_pos hemp] at h; exact absurd h (by simp)
            · rw [if_neg hemp] at h
              have hr3 : r3 = r2 := by simpa using h
              subst hr3
              refine ⟨r.takeWhile isScopeChar, ?_, fun x hx => List.mem_takeWhile_imp hx, ?_⟩
              · intro he
                rw [he] at hemp
                exact hemp rfl
              · have hsplit := List.takeWhile_append_dropWhile isScopeChar r
                rw [hdrop] at hsplit
                rw [List.cons_append]
                exact congrArg (List.cons '(') hsplit.symm
          · rw [if_neg hc2] at h; exact absurd h (by simp)
      · rw [if_neg hc] at h; exact absurd h (by simp)
  · rintro ⟨body, hne, hall, rfl⟩
    have hy : isScopeChar ')' = false := by decide
    have htd := takeWhile_dropWhile_all isScopeChar body r2 ')' hall hy
    show parseScope ('(' :: (body ++ ')' :: r2)) = some r2
    have hbe : body.isEmpty = false := by
      cases body with
      | nil => exact absurd rfl hne
      | cons a b => rfl
    simp [parseScope, htd.1, htd.2, hbe]

theorem spec_ty_ne_nil : ∀ ty ∈ conventionalTypes, ty ≠ [] := by decide

theorem matchesConventional_iff {t : List Char} :
    matchesConventional t = true ↔ SpecGrammar t := by
  constructor
  · intro h
    obtain ⟨ty, hty, hb⟩ := List.any_eq_true.mp h
    have hpre : ty.isPrefixOf t = true := by
      cases hp : ty.isPrefixOf t
      · rw [hp] at hb; simp at hb
      · rfl
    have hafter : afterTypeMatches (t.drop ty.length) = true := by
      rw [hpre] at hb; simpa using hb
    obtain ⟨r, rfl⟩ := List.isPrefixOf_iff_prefix.mp hpre
    rw [List.drop_left] at hafter
    unfold afterTypeMatches at hafter
    rcases Bool.or_eq_true_iff.mp hafter with hleft | hright
    · cases hps : parseScope r with
      | none => rw [hps] at hleft; simp at hleft
      | some r2 =>
        rw [hps] at hleft
        obtain ⟨body, hbne, hball, hreq⟩ := parseScope_iff.mp hps
        obtain ⟨c, rs, hr2eq, hcne⟩ := colonSpaceDesc_iff.mp hleft
        refine ⟨ty, '(' :: body ++ [')'], c :: rs, hty, ?_, by simp, by simpa, ?_⟩
        · exact Or.inr ⟨body, hbne, hball, rfl⟩
        · rw [hreq, hr2eq]
          simp
    · obtain ⟨c, rs, hreq, hcne⟩ := colonSpaceDesc_iff.mp hright
      refine ⟨ty, [], c :: rs, hty, Or.inl rfl, by simp, by simpa, ?_⟩
      rw [hreq]
      simp
  · rintro ⟨ty, scope, rest, hty, hscope, hne, hhead, rfl⟩
    apply List.any_eq_true.mpr
    refine ⟨ty, hty, ?_⟩
    obtain ⟨c, rs, rfl⟩ : ∃ c rs, rest = c :: rs := by
      cases rest with
      | nil => exact absurd rfl hne
      | cons c rs => exact ⟨c, rs, rfl⟩
    have hcne : c ≠ '\n' := by
      intro e
      rw [e] at hhead
      exact hhead rfl
    have hassoc : ty ++ scope ++ ':' :: ' ' :: c :: rs =
        ty ++ (scope ++ ':' :: ' ' :: c :: rs) := by simp
    rw [hassoc]
    refine (Bool.and_eq_true _ _).mpr ⟨?_, ?_⟩
    · exact List.isPrefixOf_iff_prefix.mpr (List.prefix_append _ _)
    rw [List.drop_left]
    rcases hscope with rfl | ⟨body, hbne, hball, rfl⟩
    · have hcs : colonSpaceDesc (':' :: ' ' :: c :: rs) = true :=
        colonSpaceDesc_iff.mpr ⟨c, rs, rfl, hcne⟩
      unfold afterTypeMatches
      simp [hcs]
    · have hps2 : parseScope ('(' :: (body ++ ')' :: ':' :: ' ' :: c :: rs)) =
          some (':' :: ' ' :: c :: rs) :=
        parseScope_iff.mpr ⟨body, hbne, hball, rfl⟩
      have hcs : colonSpaceDesc (':' :: ' ' :: c :: rs) = true :=
        colonSpaceDesc_iff.mpr ⟨c, rs, rfl, hcne⟩
      have hX : ('(' :: body ++ [')']) ++ ':' :: ' ' :: c :: rs =
          '(' :: (body ++ ')' :: ':' :: ' ' :: c :: rs) := by simp
      unfold afterTypeMatches
      rw [hX, hps2]
      simp [hcs]

/-- C3 (amended): `validate` succeeds exactly on input whose trimmed text
starts with one of the eleven lowercase type tags, an optional
parenthesized scope of lowercase alphanumerics and hyphens, a literal
colon-space, and a description with at least one non-newline character
right after the colon-space (a description starting with a newline is
rejected); further lines are accepted in full.  Every input that is
non-empty after trimming and fails the grammar is rejected with
`InvalidFormat` carrying the trimmed text. -/
theorem validate_accepts_exactly_grammar (s : String) :
    ((∃ c, ConventionalCommit.validate s = .ok c) ↔ SpecGrammar (rustTrim s.data)) ∧
    (rustTrim s.data ≠ [] → ¬ SpecGrammar (rustTrim s.data) →
      ConventionalCommit.validate s = .error (.invalidFormat ⟨rustTrim s.data⟩)) := by
  unfold ConventionalCommit.validate
  by_cases hemp : (rustTrim s.data).isEmpty
  · rw [if_pos hemp]
    have hnil : rustTrim s.data = [] := List.isEmpty_iff.mp hemp
    constructor
    · constructor
      · rintro ⟨c, hc⟩
        exact absurd hc (by simp)
      · rintro ⟨ty, scope, rest, hty, _, _, _, heq⟩
        rw [hnil] at heq
        have := spec_ty_ne_nil ty hty
        cases ty with
        | nil => exact absurd rfl this
        | cons a b => simp at heq
    · intro hne _
      exact absurd hnil hne
  · rw [if_neg hemp]
    by_cases hm : matchesConventional (rustTrim s.data)
    · rw [if_pos hm]
      constructor
      · constructor
        · intro _
          exact matchesConventional_iff.mp hm
        · intro _
          exact ⟨_, rfl⟩
      · intro _ hns
        exact absurd (matchesConventional_iff.mp hm) hns
    · rw [if_neg hm]
      constructor
      · constructor
        · rintro ⟨c, hc⟩
          exact absurd hc (by simp)
        · intro hs
          exact absurd (matchesConventional_iff.mpr hs) hm
      · intro _ _
        rfl

/-- C3 counterexample: `"feat: \nx"` satisfies the claim's literal grammar
(colon-space followed by the non-empty remainder `"\nx"`), yet the code
rejects it, because the description may not begin with a newline; and
whitespace-only input (non-empty, non-matching) is rejected with `Empty`,
not `InvalidFormat`. -/
theorem validate_claim_counterexample :
    ClaimGrammar (rustTrim (("feat: \nx").data)) ∧
    ConventionalCommit.validate ("feat: \nx") =
      .error (.invalidFormat ("feat: \nx")) ∧
    ConventionalCommit.validate ("   ") = .error .empty := by
  refine ⟨⟨("feat").data, [], '\n' :: ['x'], by decide, Or.inl rfl, by decide, by decide⟩,
    by decide, by decide⟩

/-- C3 witness. -/
theorem validate_accepts_exactly_grammar_witness :
    ∃ c, ConventionalCommit.validate ("feat(api): add endpoint") = .ok c :=
  (validate_accepts_exactly_grammar ("feat(api): add endpoint")).1.mpr
    ⟨("feat").data, '(' :: ("api").data ++ [')'], ("add endpoint").data, by decide,
      Or.inr ⟨("api").data, by decide, by decide, rfl⟩, by decide, by decide, by decide⟩

/-! ## Claim C4 -/

/-- C4: whenever validation succeeds, the textual contents of the
returned value equal the trimmed input exactly — validation never
rewrites content; and input that is empty after trimming fails with
`Empty`. -/
theorem validate_preserves_trimmed_text (s : String) :
    (∀ c, ConventionalCommit.validate s = .ok c → c.as_str = ⟨rustTrim s.data⟩) ∧
    (rustTrim s.data = [] → ConventionalCommit.validate s = .error .empty) := by
  constructor
  · intro c hc
    unfold ConventionalCommit.validate at hc
    by_cases hemp : (rustTrim s.data).isEmpty
    · rw [if_pos hemp] at hc
      exact absurd hc (by simp)
    · rw [if_neg hemp] at hc
      by_cases hm : matchesConventional (rustTrim s.data)
      · rw [if_pos hm] at hc
        have hco := Except.ok.inj hc
        rw [← hco]
        rfl
      · rw [if_neg hm] at hc
        exact absurd hc (by simp)
  · intro hnil
    unfold ConventionalCommit.validate
    rw [if_pos (by rw [hnil]; rfl)]

/-- C4 witness. -/
theorem validate_preserves_trimmed_text_witness :
    (ConventionalCommit.mk ("feat: x")).as_str = ⟨rustTrim (("feat: x").data)⟩ ∧
    ConventionalCommit.validate ("  \n ") = .error .empty :=
  ⟨(validate_preserves_trimmed_text ("feat: x")).1 ⟨"feat: x"⟩ (by decide),
   (validate_preserves_trimmed_text ("  \n ")).2 (by decide)⟩

/-! ## Claim C10 -/

/-- C10: agent-name parsing and display round-trip, `from_str` is
case-insensitive on the three names, and every other string fails with a
parse error carrying the invalid input. -/
theorem agent_name_parse_display_roundtrip :
    (∀ a : AgentName, AgentName.from_str a.displayString = .ok a) ∧
    (∀ (s : String) (a : AgentName),
      AgentName.from_str s = .ok a ↔ rustToLowercase s = a.displayString) ∧
    (∀ s : String, rustToLowercase s ≠ "claude" → rustToLowercase s ≠ "codex" →
      rustToLowercase s ≠ "gemini" → AgentName.from_str s = .error ⟨s⟩) := by
  refine ⟨?_, ?_, ?_⟩
  · intro a
    cases a <;> decide
  · intro s a
    unfold AgentName.from_str
    by_cases h1 : rustToLowercase s = "claude"
    · rw [if_pos h1]
      cases a <;> simp [AgentName.displayString, h1]
    · rw [if_neg h1]
      by_cases h2 : rustToLowercase s = "codex"
      · rw [if_pos h2]
        cases a <;> simp [AgentName.displayString, h1, h2]
      · rw [if_neg h2]
        by_cases h3 : rustToLowercase s = "gemini"
        · rw [if_pos h3]
          cases a <;> simp [AgentName.displayString, h1, h2, h3]
        · rw [if_neg h3]
          cases a <;> simp [AgentName.displayString, h1, h2, h3]
  · intro s h1 h2 h3
    unfold AgentName.from_str
    rw [if_neg h1, if_neg h2, if_neg h3]

/-- C10 witness. -/
theorem agent_name_parse_display_roundtrip_witness :
    AgentName.from_str ("xyz") = .error ⟨"xyz"⟩ :=
  agent_name_parse_display_roundtrip.2.2 ("xyz") (by decide) (by decide) (by decide)

/-! ## Claim C5 -/

/-- C5: when the selected agent's executable is absent from the search
path, `execute` returns `NotFound` tagged with that agent and attempts no
spawn (the availability check runs before any process is spawned), and
`generate_commit_message` surfaces the same error. -/
theorem execute_absent_notFound_no_spawn (a : AgentName) (env : ProcEnv)
    (h : env.whichFinds a.command_name = false) :
    Agent.execute a env = (.error (.notFound a), 0) ∧
    (∀ (g : GitProviderM) (sig : Option String) (d : StagedDiff),
      g.hasStagedChanges = .ok true → g.getStagedDiff = .ok d →
      generate_commit_message g (fun _ => (Agent.execute a env).1) sig =
        (.error (.agent (.notFound a)), ⟨1, 1, 1, 1, 0⟩)) := by
  have hex : Agent.execute a env = (.error (.notFound a), 0) := by
    cases a <;>
      simp [Agent.execute, ClaudeAgent.execute, CodexAgent.execute,
        GeminiAgent.execute, check_command_exists, h]
  refine ⟨hex, fun g sig d hg hd => ?_⟩
  unfold generate_commit_message
  rw [hg, hd]
  simp [hex]

/-- C5 witness. -/
theorem execute_absent_notFound_no_spawn_witness :
    Agent.execute .Codex ⟨fun _ => false, .ok (), .ok (), .ok (), true, "", "", 0, 0, 0⟩ =
      (.error (.notFound .Codex), 0) :=
  (execute_absent_notFound_no_spawn .Codex
    ⟨fun _ => false, .ok (), .ok (), .ok (), true, "", "", 0, 0, 0⟩ rfl).1

/-! ## Claim C6 -/

/-- C6: with no staged changes, `generate_commit_message` fails with the
no-staged-changes error before any prompt is built or agent invoked; more
generally every failing step short-circuits the remaining ones and no
step ever runs more than once. -/
theorem generate_short_circuits (g : GitProviderM)
    (aexec : String → Except AgentError String) (sig : Option String) :
    (g.hasStagedChanges = .ok false →
      generate_commit_message g aexec sig =
        (.error (.git .noStagedChanges), ⟨1, 0, 0, 0, 0⟩)) ∧
    (∀ e, g.hasStagedChanges = .error e →
      generate_commit_message g aexec sig = (.error (.git e), ⟨1, 0, 0, 0, 0⟩)) ∧
    (∀ e, g.hasStagedChanges = .ok true → g.getStagedDiff = .error e →
      generate_commit_message g aexec sig = (.error (.git e), ⟨1, 1, 0, 0, 0⟩)) ∧
    (∀ e d, g.hasStagedChanges = .ok true → g.getStagedDiff = .ok d →
      aexec (build_prompt d) = .error e →
      generate_commit_message g aexec sig = (.error (.agent e), ⟨1, 1, 1, 1, 0⟩)) ∧
    ((generate_commit_message g aexec sig).2.gitChecks ≤ 1 ∧
     (generate_commit_message g aexec sig).2.diffGets ≤ 1 ∧
     (generate_commit_message g aexec sig).2.promptsBuilt ≤ 1 ∧
     (generate_commit_message g aexec sig).2.agentCalls ≤ 1 ∧
     (generate_commit_message g aexec sig).2.validations ≤ 1) := by
  refine ⟨?_, ?_, ?_, ?_, ?_⟩
  · intro h
    unfold generate_commit_message
    rw [h]
  · intro e h
    unfold generate_commit_message
    rw [h]
  · intro e hg hd
    unfold generate_commit_message
    rw [hg, hd]
  · intro e d hg hd ha
    unfold generate_commit_message
    rw [hg, hd]
    simp [ha]
  · unfold generate_commit_message
    rcases hg : g.hasStagedChanges with e | b
    · simp [hg]
    · cases b
      · simp [hg]
      · rcases hd : g.getStagedDiff with e | d
        · simp [hg, hd]
        · rcases ha : aexec (build_prompt d) with e | raw
          · simp [hg, hd, ha]
          · rcases sig with _ | s
            · rcases hv : ConventionalCommit.validate (clean_ai_response raw) with e | c <;>
                simp [hg, hd, ha, hv]
            · rcases hv : ConventionalCommit.validate (clean_ai_response raw ++ "\n\n" ++ s)
                with e | c <;> simp [hg, hd, ha, hv]

/-- C6 witness. -/
theorem generate_short_circuits_witness :
    generate_commit_message ⟨.ok false, .error .noStagedChanges⟩
      (fun _ => .error (.invalidResponse "")) none =
      (.error (.git .noStagedChanges), ⟨1, 0, 0, 0, 0⟩) :=
  (generate_short_circuits ⟨.ok false, .error .noStagedChanges⟩
    (fun _ => .error (.invalidResponse "")) none).1 rfl

/-! ## Claim C7 -/

/-- C7: when the wall-clock cost of the whole child-process interaction —
spawning, standard-input delivery and output collection together, which
is exactly what the timeout wraps — exceeds the fixed 120-second bound,
`execute` returns `Timeout` carrying the agent identity and
`timeout_secs = 120`, and `generate_commit_message` surfaces the same
error. -/
theorem claude_execute_timeout (env : ProcEnv)
    (hfound : env.whichFinds AgentName.Claude.command_name = true)
    (hsecs : AGENT_TIMEOUT_SECS < env.stdinProtocolSecs) :
    ClaudeAgent.execute env = (.error (.timeout .Claude 120), 1) ∧
    (∀ (g : GitProviderM) (sig : Option String) (d : StagedDiff),
      g.hasStagedChanges = .ok true → g.getStagedDiff = .ok d →
      generate_commit_message g (fun _ => (ClaudeAgent.execute env).1) sig =
        (.error (.agent (.timeout .Claude 120)), ⟨1, 1, 1, 1, 0⟩)) := by
  have hex : ClaudeAgent.execute env = (.error (.timeout .Claude 120), 1) := by
    unfold ClaudeAgent.execute check_command_exists
    rw [if_pos hfound]
    dsimp only
    rw [if_pos hsecs]
    rfl
  refine ⟨hex, fun g sig d hg hd => ?_⟩
  unfold generate_commit_message
  rw [hg, hd]
  simp [hex]

/-- C7 witness: an environment in which writing the prompt to the child's
standard input alone blocks for longer than the bound (the wait-for-exit
phase takes no time at all) still times out, because the bound wraps the
whole interaction. -/
theorem claude_execute_timeout_witness :
    ClaudeAgent.execute ⟨fun _ => true, .ok (), .ok (), .ok (), true, "", "", 0, 121, 0⟩ =
      (.error (.timeout .Claude 120), 1) :=
  (claude_execute_timeout ⟨fun _ => true, .ok (), .ok (), .ok (), true, "", "", 0, 121, 0⟩
    rfl (by decide)).1

/-! ## Claim C8 -/

theorem utf8Len_append (a b : List Char) :
    utf8Len (a ++ b) = utf8Len a + utf8Len b := by
  simp [utf8Len]

theorem utf8Len_replicate (n : Nat) (c : Char) :
    utf8Len (List.replicate n c) = n * c.utf8Size := by
  simp [utf8Len, List.map_replicate, List.sum_replicate, smul_eq_mul]

theorem takeBytes_take (b : Nat) (l : List Char) :
    ∃ n, takeBytes b l = l.take n ∧ utf8Len (l.take n) ≤ b := by
  induction l generalizing b with
  | nil => exact ⟨0, rfl, by simp [utf8Len]⟩
  | cons c rest ih =>
    by_cases hc : c.utf8Size ≤ b
    · obtain ⟨n, hn, hle⟩ := ih (b - c.utf8Size)
      refine ⟨n + 1, ?_, ?_⟩
      · simp [takeBytes, hc, hn]
      · simp only [List.take_succ_cons, utf8Len, List.map_cons, List.sum_cons]
        have : utf8Len (rest.take n) ≤ b - c.utf8Size := hle
        simp only [utf8Len] at this
        omega
    · refine ⟨0, ?_, by simp [utf8Len]⟩
      simp [takeBytes, hc]

theorem getLast?_replicate_succ (n : Nat) (c : Char) :
    (List.replicate (n + 1) c).getLast? = some c := by
  rw [List.replicate_succ', List.getLast?_append]
  rfl

/-- C8 (amended): the 8000 budget of `truncate_diff` is a UTF-8 byte
budget (Rust `str::len`), not a character count: input of at most 8000
bytes is returned unchanged with no marker; longer input is cut at a
character boundary — the kept part is a character prefix of at most 8000
bytes — and the marker is appended, so the output is at most
8000 + 21 bytes. -/
theorem truncate_diff_spec (l : List Char) :
    (utf8Len l ≤ MAX_DIFF_LENGTH → truncate_diff l = l) ∧
    (MAX_DIFF_LENGTH < utf8Len l →
      ∃ n, truncate_diff l = l.take n ++ truncMarker ∧
        utf8Len (l.take n) ≤ MAX_DIFF_LENGTH ∧
        utf8Len (truncate_diff l) ≤ MAX_DIFF_LENGTH + utf8Len truncMarker) := by
  constructor
  · intro h
    unfold truncate_diff
    rw [if_pos h]
  · intro h
    unfold truncate_diff
    rw [if_neg (by omega)]
    obtain ⟨n, hn, hle⟩ := takeBytes_take MAX_DIFF_LENGTH l
    refine ⟨n, by rw [hn], hle, ?_⟩
    rw [hn, utf8Len_append]
    omega

/-- C8 counterexample: 2001 copies of a four-byte character form an input
of only 2001 characters — within the claimed 8000-character budget — yet
`truncate_diff` cuts it, because the code measures bytes (8004 here), not
characters. -/
theorem truncate_splits_by_bytes_not_chars :
    (List.replicate 2001 (Char.ofNat 0x1F600)).length ≤ 8000 ∧
    truncate_diff (List.replicate 2001 (Char.ofNat 0x1F600)) ≠
      List.replicate 2001 (Char.ofNat 0x1F600) := by
  have hsz : (Char.ofNat 0x1F600).utf8Size = 4 := by decide
  have hlen : utf8Len (List.replicate 2001 (Char.ofNat 0x1F600)) = 8004 := by
    rw [utf8Len_replicate, hsz]
  constructor
  · rw [List.length_replicate]
    omega
  · intro he
    unfold truncate_diff at he
    rw [if_neg (by rw [hlen]; decide)] at he
    have h1 : (takeBytes MAX_DIFF_LENGTH (List.replicate 2001 (Char.ofNat 0x1F600)) ++
        truncMarker).getLast? = some ')' := by
      rw [List.getLast?_append]
      rfl
    rw [he] at h1
    have h2 : (List.replicate 2001 (Char.ofNat 0x1F600)).getLast? =
        some (Char.ofNat 0x1F600) := getLast?_replicate_succ 2000 _
    rw [h2] at h1
    exact absurd h1 (by decide)

/-- C8 witness. -/
theorem truncate_diff_spec_witness :
    truncate_diff (("short diff").data) = ("short diff").data :=
  (truncate_diff_spec (("short diff").data)).1 (by decide)

/-! ## Claim C9 -/

theorem trimRight_append (A B : List Char) :
    ∃ m, trimRight (A ++ B) = trimRight A ++ m := by
  by_cases h : (B.reverse.dropWhile isRustWhitespace).isEmpty
  · refine ⟨[], ?_⟩
    unfold trimRight
    rw [List.reverse_append, List.dropWhile_append, if_pos h]
    simp
  · refine ⟨(A.reverse.takeWhile isRustWhitespace).reverse ++
      (B.reverse.dropWhile isRustWhitespace).reverse, ?_⟩
    unfold trimRight
    rw [List.reverse_append, List.dropWhile_append, if_neg h, List.reverse_append]
    have hA : (A.reverse.dropWhile isRustWhitespace).reverse ++
        (A.reverse.takeWhile isRustWhitespace).reverse = A := by
      rw [← List.reverse_append, List.takeWhile_append_dropWhile, List.reverse_reverse]
    conv_lhs => rw [List.reverse_reverse, ← hA]
    simp [List.append_assoc]

theorem trimLeft_append_of_ne_nil {A : List Char} (B : List Char)
    (h : trimLeft A ≠ []) : trimLeft (A ++ B) = trimLeft A ++ B := by
  unfold trimLeft at h ⊢
  rw [List.dropWhile_append, if_neg (by simpa [List.isEmpty_iff] using h)]

theorem rustTrim_append (A B : List Char) (h : rustTrim A ≠ []) :
    ∃ m, rustTrim (A ++ B) = rustTrim A ++ m := by
  have h1 : trimLeft A ≠ [] := by
    intro e
    apply h
    unfold rustTrim
    rw [e]
    rfl
  unfold rustTrim
  rw [trimLeft_append_of_ne_nil B h1]
  exact trimRight_append (trimLeft A) B

theorem SpecGrammar_append (t m : List Char) (h : SpecGrammar t) :
    SpecGrammar (t ++ m) := by
  obtain ⟨ty, scope, rest, hty, hsc, hne, hhead, rfl⟩ := h
  obtain ⟨c, rs, rfl⟩ : ∃ c rs, rest = c :: rs := by
    cases rest with
    | nil => exact absurd rfl hne
    | cons c rs => exact ⟨c, rs, rfl⟩
  refine ⟨ty, scope, c :: (rs ++ m), hty, hsc, by simp, by simpa using hhead, ?_⟩
  simp

/-- C9: `generate_commit_message` appends a supplied signature to the
cleaned text after exactly two newlines and only then validates; and for
every text that validates successfully on its own and every signature
string, the text followed by two newlines and the signature also
validates — the appended signature never risks invalidation. -/
theorem signature_append_never_invalidates (sig : String) :
    (∀ (g : GitProviderM) (aexec : String → Except AgentError String)
        (d : StagedDiff) (raw : String),
      g.hasStagedChanges = .ok true → g.getStagedDiff = .ok d →
      aexec (build_prompt d) = .ok raw →
      generate_commit_message g aexec (some sig) =
        (match ConventionalCommit.validate (clean_ai_response raw ++ "\n\n" ++ sig) with
         | .ok c => (.ok c, ⟨1, 1, 1, 1, 1⟩)
         | .error e => (.error (.validation e.toDisplayString), ⟨1, 1, 1, 1, 1⟩))) ∧
    (∀ t : String, (∃ c, ConventionalCommit.validate t = .ok c) →
      ∃ c2, ConventionalCommit.validate (t ++ "\n\n" ++ sig) = .ok c2) := by
  constructor
  · intro g aexec d raw hg hd ha
    unfold generate_commit_message
    rw [hg, hd]
    simp only [ha]
    rcases hv : ConventionalCommit.validate (clean_ai_response raw ++ "\n\n" ++ sig)
      with e | c <;> simp [hv]
  · rintro t ⟨c, hc⟩
    unfold ConventionalCommit.validate at hc
    by_cases hemp : (rustTrim t.data).isEmpty
    · rw [if_pos hemp] at hc
      exact absurd hc (by simp)
    · rw [if_neg hemp] at hc
      by_cases hm : matchesConventional (rustTrim t.data)
      · have hdata : (t ++ "\n\n" ++ sig).data = t.data ++ ('\n' :: '\n' :: sig.data) := by
          rw [String.data_append, String.data_append]
          simp
        have hne : rustTrim t.data ≠ [] := by
          intro e
          rw [e] at hemp
          exact hemp rfl
        obtain ⟨m, hm2⟩ := rustTrim_append t.data ('\n' :: '\n' :: sig.data) hne
        have hmatch2 : matchesConventional (rustTrim ((t ++ "\n\n" ++ sig).data)) = true := by
          rw [hdata, hm2]
          exact matchesConventional_iff.mpr
            (SpecGrammar_append _ _ (matchesConventional_iff.mp hm))
        have hne2 : rustTrim ((t ++ "\n\n" ++ sig).data) ≠ [] := by
          rw [hdata, hm2]
          intro e
          exact hne (List.append_eq_nil.mp e).1
        refine ⟨⟨⟨rustTrim ((t ++ "\n\n" ++ sig).data)⟩⟩, ?_⟩
        unfold ConventionalCommit.validate
        rw [if_neg (by simpa [List.isEmpty_iff] using hne2), if_pos hmatch2]
      · rw [if_neg hm] at hc
        exact absurd hc (by simp)

/-- C9 witness. -/
theorem signature_append_never_invalidates_witness :
    ∃ c2, ConventionalCommit.validate ("feat: x" ++ "\n\n" ++ "Co-Authored-By: Someone") =
      .ok c2 :=
  (signature_append_never_invalidates ("Co-Authored-By: Someone")).2 ("feat: x")
    ⟨⟨"feat: x"⟩, by decide⟩

end CommitmentRs
